import Mathlib

/-!
# Verification of the splurge-base58 codec and CLI

A shallow embedding of the `splurge-base58` repository: the Base58 codec
(`encode`, `decode`, `is_valid`) and the command-line layer in
`splurge_base58/cli.py`.  Bytes are modelled as `List Nat` (each element
`< 256`), strings as `List Char`, fallible operations return `Except`.
-/

set_option autoImplicit false

namespace Base58

/-- Modelled from the spec: the file `splurge_base58/base58.py` (the codec
itself) is not part of the provided sources; the 58-character alphabet is the
standard Base58 alphabet described in the spec — digits and letters excluding
`0`, `O`, `I`, `l`, with each character's position defining its value 0–57. -/
def alphabet : List Char :=
  ("123456789ABCDEFGHJKLMNPQRSTUVWXYZabcdefghijkmnopqrstuvwxyz").data

/-- Modelled from the spec: error taxonomy of the missing codec module
(`LengthExceeded` reported with observed length and limit, `InvalidCharacter`
reported with the character and its position). -/
inductive Base58Error where
  | lengthExceeded (observed : Nat) (limit : Nat)
  | invalidCharacter (c : Char) (pos : Nat)
  deriving DecidableEq, Repr

/-- Maximum encode input length in bytes (`_MAX_ENCODE_INPUT_LENGTH` in
`cli.py`, `MAX_ENCODE_LENGTH` in the spec). -/
def maxEncodeInputLength : Nat := 2048

/-- Big-endian value of a byte sequence: the integer obtained by treating the
sequence as a base-256 numeral, most-significant byte first. -/
def beVal (data : List Nat) : Nat :=
  data.foldl (fun a b => a * 256 + b) 0

/-- Fuel-driven worker for digit extraction in base `b`: repeatedly divide by
`b`, prepending remainders, until the value reaches zero.  The fuel argument
makes the recursion structural; `fuel ≥ n` always suffices. -/
def toBaseGo (b : Nat) : Nat → Nat → List Nat → List Nat
  | 0, _, acc => acc
  | fuel + 1, n, acc =>
    if n = 0 then acc else toBaseGo b fuel (n / b) (n % b :: acc)

/-- Digits of `n` in base `b`, most significant first; empty for `n = 0`. -/
def toBase (b : Nat) (n : Nat) : List Nat :=
  toBaseGo b n n []

/-- Base-58 digits of `n`, most significant first; empty for `n = 0`. -/
def toDigits58 (n : Nat) : List Nat :=
  toBase 58 n

/-- Minimal big-endian byte serialization of `n`; empty for `n = 0`. -/
def toBytes256 (n : Nat) : List Nat :=
  toBase 256 n

/-- The alphabet character for digit value `d` (`d < 58`). -/
def digitChar (d : Nat) : Char :=
  alphabet.getD d '1'

/-- The digit value of an alphabet character: its position in the alphabet. -/
def charIndex (c : Char) : Nat :=
  alphabet.findIdx (· == c)

/-- Modelled from the spec: the encoding algorithm of the missing codec module
— emit one alphabet zero-character (`'1'`) per leading `0x00` byte, then the
base-58 digits of the input read as a big-endian integer. -/
def encodeCore (data : List Nat) : List Char :=
  List.replicate (data.takeWhile (· == 0)).length '1'
    ++ (toDigits58 (beVal data)).map digitChar

/-- Modelled from the spec: `Base58.encode` of the missing codec module, with
the recommended internal enforcement of the maximum input length. -/
def encode (data : List Nat) : Except Base58Error (List Char) :=
  if data.length > maxEncodeInputLength then
    .error (.lengthExceeded data.length maxEncodeInputLength)
  else
    .ok (encodeCore data)

/-- Maximum decode input length in characters: the length of the encoding of
2048 repetitions of the byte `0x61` (`'a'`).  This mirrors both the codec's
spec-mandated bound and `_get_max_decode_input_length` in `cli.py`, which
computes `len(Base58.encode(b'a' * _MAX_ENCODE_INPUT_LENGTH))`. -/
def maxDecodeInputLength : Nat :=
  match encode (List.replicate maxEncodeInputLength 97) with
  | .ok s => s.length
  | .error _ => 0

/-- First character of `s` outside the alphabet, with its position. -/
def findInvalidGo : List Char → Nat → Option (Char × Nat)
  | [], _ => none
  | c :: cs, i => if c ∈ alphabet then findInvalidGo cs (i + 1) else some (c, i)

/-- First invalid character of `s` and its position, if any. -/
def findInvalid (s : List Char) : Option (Char × Nat) :=
  findInvalidGo s 0

/-- Value of a base-58 digit sequence, most significant first:
`value = value * 58 + digit`, left to right. -/
def fromDigits58 (ds : List Nat) : Nat :=
  ds.foldl (fun a d => a * 58 + d) 0

/-- Modelled from the spec: `Base58.decode` of the missing codec module —
length check against the derived maximum, character validation reporting the
first offending character and position, then leading zero-character counting,
big-integer accumulation and minimal big-endian serialization. -/
def decode (s : List Char) : Except Base58Error (List Nat) :=
  if s.length > maxDecodeInputLength then
    .error (.lengthExceeded s.length maxDecodeInputLength)
  else
    match findInvalid s with
    | some (c, i) => .error (.invalidCharacter c i)
    | none =>
      let z := (s.takeWhile (· == '1')).length
      let ds := (s.dropWhile (· == '1')).map charIndex
      .ok (List.replicate z 0 ++ toBytes256 (fromDigits58 ds))

/-- Modelled from the spec: `Base58.is_valid` of the missing codec module —
the recommended pure character-set predicate, independent of length. -/
def is_valid (s : List Char) : Bool :=
  s.all (· ∈ alphabet)

/-! ### Generic facts about fuelled base conversion -/

theorem toBaseGo_zero (b : Nat) : ∀ fuel acc, toBaseGo b fuel 0 acc = acc := by
  intro fuel acc
  cases fuel <;> simp [toBaseGo]

theorem toBaseGo_foldl (b : Nat) (hb : 1 < b) :
    ∀ fuel n acc, n ≤ fuel →
      (toBaseGo b fuel n acc).foldl (fun a d => a * b + d) 0
        = acc.foldl (fun a d => a * b + d) n := by
  intro fuel
  induction fuel with
  | zero =>
    intro n acc h
    interval_cases n
    simp [toBaseGo]
  | succ f ih =>
    intro n acc h
    by_cases hn : n = 0
    · simp [toBaseGo, hn]
    · have hdiv : n / b ≤ f := by
        have : n / b < n := Nat.div_lt_self (Nat.pos_of_ne_zero hn) hb
        omega
      simp only [toBaseGo, if_neg hn]
      rw [ih (n / b) (n % b :: acc) hdiv]
      simp only [List.foldl_cons]
      rw [Nat.div_add_mod' n b]

theorem toBase_foldl (b : Nat) (hb : 1 < b) (n : Nat) :
    (toBase b n).foldl (fun a d => a * b + d) 0 = n := by
  simpa using toBaseGo_foldl b hb n n [] (Nat.le_refl n)

theorem toBaseGo_lt (b : Nat) (hb : 0 < b) :
    ∀ fuel n acc d, (∀ x ∈ acc, x < b) → d ∈ toBaseGo b fuel n acc → d < b := by
  intro fuel
  induction fuel with
  | zero =>
    intro n acc d hacc hd
    exact hacc d hd
  | succ f ih =>
    intro n acc d hacc hd
    by_cases hn : n = 0
    · rw [hn, toBaseGo_zero] at hd
      exact hacc d hd
    · simp only [toBaseGo, if_neg hn] at hd
      refine ih (n / b) (n % b :: acc) d ?_ hd
      intro x hx
      rcases List.mem_cons.mp hx with hx | hx
      · rw [hx]; exact Nat.mod_lt _ hb
      · exact hacc x hx

theorem toBase_lt (b : Nat) (hb : 0 < b) (n : Nat) :
    ∀ d ∈ toBase b n, d < b := by
  intro d hd
  exact toBaseGo_lt b hb n n [] d (by simp) hd

theorem toBaseGo_head (b : Nat) (hb : 1 < b) :
    ∀ fuel n acc, 0 < n → n ≤ fuel →
      ∃ d t, toBaseGo b fuel n acc = d :: t ∧ d ≠ 0 ∧ d < b := by
  intro fuel
  induction fuel with
  | zero =>
    intro n acc hn h
    omega
  | succ f ih =>
    intro n acc hn h
    have hn0 : n ≠ 0 := by omega
    simp only [toBaseGo, if_neg hn0]
    by_cases hq : n / b = 0
    · have hnb : n < b := (Nat.div_eq_zero_iff (by omega)).mp hq
      rw [hq, toBaseGo_zero]
      exact ⟨n % b, acc, rfl, by rw [Nat.mod_eq_of_lt hnb]; omega,
        Nat.mod_lt _ (by omega)⟩
    · have hdiv : n / b ≤ f := by
        have : n / b < n := Nat.div_lt_self hn hb
        omega
      exact ih (n / b) (n % b :: acc) (Nat.pos_of_ne_zero hq) hdiv

theorem toBaseGo_length_mono (b : Nat) :
    ∀ fuel n acc, acc.length ≤ (toBaseGo b fuel n acc).length := by
  intro fuel
  induction fuel with
  | zero => intro n acc; simp [toBaseGo]
  | succ f ih =>
    intro n acc
    by_cases hn : n = 0
    · simp [toBaseGo, hn]
    · simp only [toBaseGo, if_neg hn]
      have := ih (n / b) (n % b :: acc)
      simp only [List.length_cons] at this
      omega

theorem toBaseGo_length_le (b : Nat) (hb : 1 < b) :
    ∀ fuel k n acc, n ≤ fuel → n < b ^ k →
      (toBaseGo b fuel n acc).length ≤ k + acc.length := by
  intro fuel
  induction fuel with
  | zero =>
    intro k n acc h _
    interval_cases n
    simp [toBaseGo]
  | succ f ih =>
    intro k n acc h hk
    by_cases hn : n = 0
    · simp [toBaseGo, hn]
    · cases k with
      | zero => simp at hk; omega
      | succ j =>
        have hdiv : n / b ≤ f := by
          have : n / b < n := Nat.div_lt_self (Nat.pos_of_ne_zero hn) hb
          omega
        have hq : n / b < b ^ j := by
          rw [Nat.div_lt_iff_lt_mul (by omega)]
          calc n < b ^ (j + 1) := hk
          _ = b ^ j * b := by ring
        simp only [toBaseGo, if_neg hn]
        have := ih j (n / b) (n % b :: acc) hdiv hq
        simp only [List.length_cons] at this
        omega

theorem toBaseGo_length_ge (b : Nat) (hb : 1 < b) :
    ∀ fuel k n acc, n ≤ fuel → b ^ k ≤ n →
      k + 1 + acc.length ≤ (toBaseGo b fuel n acc).length := by
  intro fuel
  induction fuel with
  | zero =>
    intro k n acc h hk
    have : 0 < b ^ k := Nat.pos_pow_of_pos k (by omega)
    omega
  | succ f ih =>
    intro k n acc h hk
    have hpos : 0 < n := by
      have : 0 < b ^ k := Nat.pos_pow_of_pos k (by omega)
      omega
    have hn : n ≠ 0 := by omega
    have hdiv : n / b ≤ f := by
      have : n / b < n := Nat.div_lt_self hpos hb
      omega
    simp only [toBaseGo, if_neg hn]
    cases k with
    | zero =>
      have := toBaseGo_length_mono b f (n / b) (n % b :: acc)
      simp only [List.length_cons] at this
      omega
    | succ j =>
      have hq : b ^ j ≤ n / b := by
        rw [Nat.le_div_iff_mul_le (by omega)]
        calc b ^ j * b = b ^ (j + 1) := by ring
        _ ≤ n := hk
      have := ih j (n / b) (n % b :: acc) hdiv hq
      simp only [List.length_cons] at this
      omega

theorem toBase_length_le (b : Nat) (hb : 1 < b) (k n : Nat) (hk : n < b ^ k) :
    (toBase b n).length ≤ k := by
  simpa using toBaseGo_length_le b hb n k n [] (Nat.le_refl n) hk

theorem toBase_length_exact (b : Nat) (hb : 1 < b) (k n : Nat)
    (hlo : b ^ k ≤ n) (hhi : n < b ^ (k + 1)) :
    (toBase b n).length = k + 1 := by
  have h1 := toBase_length_le b hb (k + 1) n hhi
  have h2 := toBaseGo_length_ge b hb n k n [] (Nat.le_refl n) hlo
  simp only [List.length_nil] at h2
  simp only [toBase] at h1 ⊢
  omega

theorem toBaseGo_append (b : Nat) :
    ∀ fuel n acc, toBaseGo b fuel n acc = toBaseGo b fuel n [] ++ acc := by
  intro fuel
  induction fuel with
  | zero => intro n acc; simp [toBaseGo]
  | succ f ih =>
    intro n acc
    by_cases hn : n = 0
    · simp [toBaseGo, hn]
    · simp only [toBaseGo, if_neg hn]
      rw [ih (n / b) (n % b :: acc), ih (n / b) [n % b]]
      simp

theorem toBaseGo_fuel_irrel (b : Nat) (hb : 1 < b) :
    ∀ f₁ f₂ n acc, n ≤ f₁ → n ≤ f₂ →
      toBaseGo b f₁ n acc = toBaseGo b f₂ n acc := by
  intro f₁
  induction f₁ with
  | zero =>
    intro f₂ n acc h₁ _
    interval_cases n
    simp [toBaseGo, toBaseGo_zero]
  | succ f ih =>
    intro f₂ n acc h₁ h₂
    by_cases hn : n = 0
    · simp [hn, toBaseGo_zero]
    · cases f₂ with
      | zero => omega
      | succ g =>
        have hlt : n / b < n := Nat.div_lt_self (Nat.pos_of_ne_zero hn) hb
        simp only [toBaseGo, if_neg hn]
        exact ih g (n / b) (n % b :: acc) (by omega) (by omega)

theorem toBase_step (b : Nat) (hb : 1 < b) (n : Nat) (hn : 0 < n) :
    toBase b n = toBase b (n / b) ++ [n % b] := by
  obtain ⟨m, rfl⟩ : ∃ m, n = m + 1 := ⟨n - 1, by omega⟩
  have hlt : (m + 1) / b < m + 1 := Nat.div_lt_self hn hb
  have h1 : toBase b (m + 1) = toBaseGo b m ((m + 1) / b) [(m + 1) % b] := by
    simp [toBase, toBaseGo]
  rw [h1, toBaseGo_append]
  simp only [toBase]
  congr 1
  exact toBaseGo_fuel_irrel b hb m ((m + 1) / b) ((m + 1) / b) []
    (by omega) (Nat.le_refl _)

/-! ### Facts about big-endian byte values -/

theorem beVal_append_singleton (l : List Nat) (x : Nat) :
    beVal (l ++ [x]) = beVal l * 256 + x := by
  simp [beVal, List.foldl_append]

theorem foldl_byteVal_ge (t : List Nat) :
    ∀ v, v ≤ t.foldl (fun a b => a * 256 + b) v := by
  induction t with
  | nil => intro v; simp
  | cons b t ih =>
    intro v
    simp only [List.foldl_cons]
    calc v ≤ v * 256 + b := by nlinarith
    _ ≤ t.foldl (fun a b => a * 256 + b) (v * 256 + b) := ih _

theorem beVal_cons_pos (h : Nat) (t : List Nat) (hh : h ≠ 0) :
    0 < beVal (h :: t) := by
  have : h ≤ (h :: t).foldl (fun a b => a * 256 + b) 0 := by
    simpa using foldl_byteVal_ge t h
  have hp : 0 < h := Nat.pos_of_ne_zero hh
  calc 0 < h := hp
  _ ≤ beVal (h :: t) := this

theorem foldl_byteVal_lt (l : List Nat) :
    ∀ v, (∀ x ∈ l, x < 256) →
      l.foldl (fun a b => a * 256 + b) v < (v + 1) * 256 ^ l.length := by
  induction l with
  | nil => intro v _; simp
  | cons b t ih =>
    intro v hl
    simp only [List.foldl_cons, List.length_cons]
    have hb : b < 256 := hl b (by simp)
    have h1 : t.foldl (fun a b => a * 256 + b) (v * 256 + b)
        < (v * 256 + b + 1) * 256 ^ t.length :=
      ih (v * 256 + b) (fun x hx => hl x (by simp [hx]))
    have h2 : (v * 256 + b + 1) * 256 ^ t.length ≤ (v + 1) * 256 ^ (t.length + 1) := by
      have : v * 256 + b + 1 ≤ (v + 1) * 256 := by omega
      calc (v * 256 + b + 1) * 256 ^ t.length ≤ (v + 1) * 256 * 256 ^ t.length :=
            Nat.mul_le_mul_right _ this
      _ = (v + 1) * 256 ^ (t.length + 1) := by ring
    omega

theorem beVal_lt (l : List Nat) (hl : ∀ x ∈ l, x < 256) :
    beVal l < 256 ^ l.length := by
  have := foldl_byteVal_lt l 0 hl
  simpa [beVal] using this

/-- Canonical big-endian byte sequences (no leading zero byte, all bytes in
range) are exactly recovered by `toBytes256` from their value. -/
theorem toBytes256_beVal (l : List Nat) :
    (∀ x ∈ l, x < 256) → (l = [] ∨ ∃ h t, l = h :: t ∧ h ≠ 0) →
    toBytes256 (beVal l) = l := by
  induction l using List.reverseRecOn with
  | nil => intro _ _; rfl
  | append_singleton l' x ih =>
    intro hlt hcanon
    have hx : x < 256 := hlt x (by simp)
    rw [beVal_append_singleton]
    cases l' with
    | nil =>
      have hxne : x ≠ 0 := by
        rcases hcanon with hc | ⟨h, t, heq, hne⟩
        · simp at hc
        · simp only [List.nil_append] at heq
          injection heq with h1 _
          omega
      simp only [beVal, List.foldl_nil, Nat.zero_mul, Nat.zero_add]
      rw [show toBytes256 x = toBase 256 x from rfl,
        toBase_step 256 (by omega) x (Nat.pos_of_ne_zero hxne)]
      rw [Nat.div_eq_of_lt hx, Nat.mod_eq_of_lt hx]
      rfl
    | cons hd tl =>
      have hhd : hd ≠ 0 := by
        rcases hcanon with hc | ⟨h, t, heq, hne⟩
        · simp at hc
        · rw [List.cons_append] at heq
          injection heq with h1 _
          omega
      have hB : 0 < beVal (hd :: tl) := beVal_cons_pos hd tl hhd
      set B := beVal (hd :: tl) with hBdef
      have hpos : 0 < B * 256 + x := by positivity
      rw [show toBytes256 (B * 256 + x) = toBase 256 (B * 256 + x) from rfl,
        toBase_step 256 (by omega) _ hpos]
      have hdiv : (B * 256 + x) / 256 = B := by omega
      have hmod : (B * 256 + x) % 256 = x := by omega
      rw [hdiv, hmod]
      have hrec : toBase 256 B = hd :: tl := by
        have := ih (fun y hy => hlt y (by simp at hy ⊢; tauto)) (Or.inr ⟨hd, tl, rfl, hhd⟩)
        simpa [toBytes256] using this
      rw [hrec]

/-! ### Alphabet facts -/

theorem alphabet_length : alphabet.length = 58 := by decide

theorem one_mem_alphabet : '1' ∈ alphabet := by decide

theorem digitChar_mem : ∀ d, d < 58 → digitChar d ∈ alphabet := by decide

theorem charIndex_digitChar : ∀ d, d < 58 → charIndex (digitChar d) = d := by decide

theorem digitChar_eq_one_iff : ∀ d, d < 58 → (digitChar d = '1' ↔ d = 0) := by decide

/-! ### takeWhile / dropWhile helpers -/

theorem takeWhile_replicate_pos {α : Type} (p : α → Bool) (a : α) (hp : p a = true) :
    ∀ z, (List.replicate z a).takeWhile p = List.replicate z a := by
  intro z
  induction z with
  | zero => simp
  | succ z ih => simp [List.replicate_succ, List.takeWhile_cons, hp, ih]

theorem dropWhile_replicate_pos {α : Type} (p : α → Bool) (a : α) (hp : p a = true) :
    ∀ z, (List.replicate z a).dropWhile p = [] := by
  intro z
  induction z with
  | zero => simp
  | succ z ih => simp [List.replicate_succ, List.dropWhile_cons, hp, ih]

theorem takeWhile_replicate_neg {α : Type} (p : α → Bool) (a : α) (hp : p a = false) (z : Nat) :
    (List.replicate z a).takeWhile p = [] := by
  cases z with
  | zero => simp
  | succ z => simp [List.replicate_succ, List.takeWhile_cons, hp]

theorem takeWhile_replicate_append {α : Type} (p : α → Bool) (a : α) (hp : p a = true)
    (z : Nat) (t : List α) :
    (List.replicate z a ++ t).takeWhile p = List.replicate z a ++ t.takeWhile p := by
  induction z with
  | zero => simp
  | succ z ih => simp [List.replicate_succ, List.takeWhile_cons, hp, ih]

theorem dropWhile_replicate_append {α : Type} (p : α → Bool) (a : α) (hp : p a = true)
    (z : Nat) (t : List α) :
    (List.replicate z a ++ t).dropWhile p = t.dropWhile p := by
  induction z with
  | zero => simp
  | succ z ih => simp [List.replicate_succ, List.dropWhile_cons, hp, ih]

theorem dropWhile_head_false {α : Type} (p : α → Bool) (l : List α) (h : α) (t : List α)
    (he : l.dropWhile p = h :: t) : p h = false := by
  induction l with
  | nil => simp at he
  | cons a l' ih =>
    by_cases hp : p a
    · rw [List.dropWhile_cons_of_pos hp] at he
      exact ih he
    · rw [List.dropWhile_cons_of_neg hp] at he
      injection he with h1 _
      rw [← h1]
      exact Bool.of_not_eq_true hp

/-- Every list of bytes splits as its leading zeros followed by its remainder. -/
theorem zeros_decomposition (l : List Nat) :
    l = List.replicate (l.takeWhile (· == 0)).length 0 ++ l.dropWhile (· == 0) := by
  conv_lhs => rw [← List.takeWhile_append_dropWhile (p := (· == 0)) (l := l)]
  congr 1
  apply List.eq_replicate_length.mpr
  intro b hb
  have := List.mem_takeWhile_imp hb
  simpa using this

theorem beVal_replicate_zero_append (z : Nat) (t : List Nat) :
    beVal (List.replicate z 0 ++ t) = beVal t := by
  induction z with
  | zero => simp
  | succ z ih => simpa [beVal, List.replicate_succ] using ih

/-! ### findInvalid -/

theorem findInvalidGo_none_iff (s : List Char) :
    ∀ i, findInvalidGo s i = none ↔ ∀ c ∈ s, c ∈ alphabet := by
  induction s with
  | nil => intro i; simp [findInvalidGo]
  | cons c cs ih =>
    intro i
    by_cases hc : c ∈ alphabet
    · simp [findInvalidGo, hc, ih (i + 1)]
    · simp [findInvalidGo, hc]

theorem findInvalid_none_iff (s : List Char) :
    findInvalid s = none ↔ ∀ c ∈ s, c ∈ alphabet :=
  findInvalidGo_none_iff s 0

theorem findInvalidGo_some_spec (s : List Char) :
    ∀ i c j, findInvalidGo s i = some (c, j) →
      i ≤ j ∧ s[j - i]? = some c ∧ c ∉ alphabet ∧
        ∀ m, m < j - i → ∃ cm ∈ alphabet, s[m]? = some cm := by
  induction s with
  | nil => intro i c j h; simp [findInvalidGo] at h
  | cons a s' ih =>
    intro i c j h
    by_cases ha : a ∈ alphabet
    · rw [findInvalidGo, if_pos ha] at h
      obtain ⟨h1, h2, h3, h4⟩ := ih (i + 1) c j h
      refine ⟨by omega, ?_, h3, ?_⟩
      · have hji : j - i = (j - (i + 1)) + 1 := by omega
        rw [hji]
        simpa using h2
      · intro m hm
        cases m with
        | zero => exact ⟨a, ha, by simp⟩
        | succ m' =>
          have hm' : m' < j - (i + 1) := by omega
          obtain ⟨cm, hcm1, hcm2⟩ := h4 m' hm'
          exact ⟨cm, hcm1, by simpa using hcm2⟩
    · rw [findInvalidGo, if_neg ha] at h
      injection h with h'
      injection h' with hc hj
      subst hc; subst hj
      exact ⟨Nat.le_refl i, by simp, ha, by omega⟩

theorem findInvalid_some_spec (s : List Char) (c : Char) (j : Nat)
    (h : findInvalid s = some (c, j)) :
    s[j]? = some c ∧ c ∉ alphabet ∧
      ∀ m, m < j → ∃ cm ∈ alphabet, s[m]? = some cm := by
  obtain ⟨_, h2, h3, h4⟩ := findInvalidGo_some_spec s 0 c j h
  simp only [Nat.sub_zero] at h2 h4
  exact ⟨h2, h3, h4⟩

/-! ### Length bound for encoded output -/

theorem pow_bound : ∀ z : Nat, 256 ^ (2048 - z) ≤ 58 ^ (2797 - z) := by
  intro z
  induction z with
  | zero => norm_num
  | succ z ih =>
    by_cases hz : 2048 ≤ z
    · have h1 : 2048 - (z + 1) = 0 := by omega
      rw [h1]
      simpa using Nat.one_le_pow (2797 - (z + 1)) 58 (by norm_num)
    · have ha : 2048 - z = (2047 - z) + 1 := by omega
      have hb : 2797 - z = (2796 - z) + 1 := by omega
      have ha' : 2048 - (z + 1) = 2047 - z := by omega
      have hb' : 2797 - (z + 1) = 2796 - z := by omega
      rw [ha, hb, pow_succ, pow_succ] at ih
      rw [ha', hb']
      have h2 : 256 ^ (2047 - z) * 58 ≤ 58 ^ (2796 - z) * 58 := by
        calc 256 ^ (2047 - z) * 58 ≤ 256 ^ (2047 - z) * 256 :=
              Nat.mul_le_mul_left _ (by norm_num)
        _ ≤ 58 ^ (2796 - z) * 58 := ih
      exact Nat.le_of_mul_le_mul_right h2 (by norm_num)

theorem encodeCore_length_le (b : List Nat) (hlen : b.length ≤ 2048)
    (hb : ∀ x ∈ b, x < 256) : (encodeCore b).length ≤ 2797 := by
  have hdec := zeros_decomposition b
  set z := (b.takeWhile (· == 0)).length with hz
  set rest := b.dropWhile (· == 0) with hrest
  have hlen' : z + rest.length = b.length := by
    conv_rhs => rw [hdec]
    simp
  have hzle : z ≤ 2048 := by omega
  have hval : beVal b = beVal rest := by
    conv_lhs => rw [hdec]
    exact beVal_replicate_zero_append z rest
  have hmem : ∀ x ∈ rest, x < 256 := by
    intro x hx
    refine hb x ?_
    rw [hdec]
    exact List.mem_append_right _ hx
  have h1 : beVal rest < 256 ^ rest.length := beVal_lt rest hmem
  have h2 : (256 : Nat) ^ rest.length ≤ 256 ^ (2048 - z) :=
    Nat.pow_le_pow_right (by norm_num) (by omega)
  have h3 : beVal b < 58 ^ (2797 - z) := by
    calc beVal b = beVal rest := hval
    _ < 256 ^ rest.length := h1
    _ ≤ 256 ^ (2048 - z) := h2
    _ ≤ 58 ^ (2797 - z) := pow_bound z
  have h4 : (toDigits58 (beVal b)).length ≤ 2797 - z :=
    toBase_length_le 58 (by norm_num) _ _ h3
  have h5 : (encodeCore b).length = z + (toDigits58 (beVal b)).length := by
    simp [encodeCore]
  omega

/-! ### The derived maximum decode length -/

theorem beVal_replicate_a : ∀ m, 255 * beVal (List.replicate m 97) + 97 = 97 * 256 ^ m := by
  intro m
  induction m with
  | zero => simp [beVal]
  | succ m ih =>
    rw [List.replicate_succ' m 97, beVal_append_singleton]
    calc 255 * (beVal (List.replicate m 97) * 256 + 97) + 97
        = 256 * (255 * beVal (List.replicate m 97) + 97) := by ring
    _ = 256 * (97 * 256 ^ m) := by rw [ih]
    _ = 97 * 256 ^ (m + 1) := by ring

theorem maxDecode_eq : maxDecodeInputLength = 2797 := by
  have hlenrep : (List.replicate maxEncodeInputLength 97).length = maxEncodeInputLength :=
    List.length_replicate _ _
  have hnot : ¬ (List.replicate maxEncodeInputLength 97).length > maxEncodeInputLength := by
    rw [hlenrep]
    exact Nat.lt_irrefl _
  have henc : encode (List.replicate maxEncodeInputLength 97)
      = .ok (encodeCore (List.replicate maxEncodeInputLength 97)) := by
    simp only [encode]
    rw [if_neg hnot]
  have hmax : maxDecodeInputLength
      = (encodeCore (List.replicate maxEncodeInputLength 97)).length := by
    unfold maxDecodeInputLength
    rw [henc]
  have htw : (List.replicate maxEncodeInputLength 97).takeWhile (· == (0 : Nat)) = [] :=
    takeWhile_replicate_neg _ 97 (by norm_num) maxEncodeInputLength
  have hA := beVal_replicate_a 2048
  have hlo : 58 ^ 2796 ≤ beVal (List.replicate 2048 97) := by
    have hineq : 255 * 58 ^ 2796 + 97 ≤ 97 * 256 ^ 2048 := by norm_num
    have h : 255 * 58 ^ 2796 ≤ 255 * beVal (List.replicate 2048 97) := by omega
    exact Nat.le_of_mul_le_mul_left h (by norm_num)
  have hhi : beVal (List.replicate 2048 97) < 58 ^ 2797 := by
    have hineq : 97 * 256 ^ 2048 ≤ 255 * 58 ^ 2797 := by norm_num
    have h : 255 * beVal (List.replicate 2048 97) < 255 * 58 ^ 2797 := by omega
    exact Nat.lt_of_mul_lt_mul_left h
  have hexact : (toDigits58 (beVal (List.replicate maxEncodeInputLength 97))).length = 2797 :=
    toBase_length_exact 58 (by norm_num) 2796 _ hlo hhi
  rw [hmax]
  simp only [encodeCore]
  rw [htw]
  rw [List.length_append, List.length_replicate, List.length_map, hexact]
  rfl

theorem encodeCore_length_le_max (b : List Nat) (hlen : b.length ≤ 2048)
    (hb : ∀ x ∈ b, x < 256) : (encodeCore b).length ≤ maxDecodeInputLength := by
  rw [maxDecode_eq]
  exact encodeCore_length_le b hlen hb

/-! ### The round trip -/

theorem toBase_zero (b : Nat) : toBase b 0 = [] := rfl

theorem toDigits58_zero : toDigits58 0 = [] := rfl

theorem toBase_head (b : Nat) (hb : 1 < b) (n : Nat) (hn : 0 < n) :
    ∃ d t, toBase b n = d :: t ∧ d ≠ 0 ∧ d < b :=
  toBaseGo_head b hb n n [] hn (Nat.le_refl n)

theorem map_charIndex_digitChar (ds : List Nat) (h : ∀ d ∈ ds, d < 58) :
    (ds.map digitChar).map charIndex = ds := by
  rw [List.map_map]
  conv_rhs => rw [← List.map_id ds]
  exact List.map_congr_left fun d hd => by
    simpa using charIndex_digitChar d (h d hd)

theorem fromDigits58_toDigits58 (n : Nat) : fromDigits58 (toDigits58 n) = n :=
  toBase_foldl 58 (by norm_num) n

theorem encodeCore_eq (b : List Nat) :
    encodeCore b = List.replicate (b.takeWhile (· == 0)).length '1'
      ++ (toDigits58 (beVal b)).map digitChar := rfl

theorem encodeCore_valid (b : List Nat) : ∀ c ∈ encodeCore b, c ∈ alphabet := by
  intro c hc
  rw [encodeCore_eq] at hc
  rcases List.mem_append.mp hc with hc | hc
  · have := List.eq_of_mem_replicate hc
    rw [this]
    exact one_mem_alphabet
  · obtain ⟨d, hd, rfl⟩ := List.mem_map.mp hc
    exact digitChar_mem d (toBase_lt 58 (by norm_num) _ d hd)

theorem decode_eq_of_valid (s : List Char) (h1 : ¬ s.length > maxDecodeInputLength)
    (h2 : findInvalid s = none) :
    decode s = .ok (List.replicate (s.takeWhile (· == '1')).length 0
      ++ toBytes256 (fromDigits58 ((s.dropWhile (· == '1')).map charIndex))) := by
  unfold decode
  rw [if_neg h1, h2]

/-- Decoding inverts the core encoding on byte sequences within the length
bound. -/
theorem decode_encodeCore (b : List Nat) (hlen : b.length ≤ maxEncodeInputLength)
    (hb : ∀ x ∈ b, x < 256) : decode (encodeCore b) = .ok b := by
  have hb2048 : b.length ≤ 2048 := hlen
  have hvalid : ∀ c ∈ encodeCore b, c ∈ alphabet := encodeCore_valid b
  have hlenle : (encodeCore b).length ≤ maxDecodeInputLength :=
    encodeCore_length_le_max b hb2048 hb
  have hfi : findInvalid (encodeCore b) = none := (findInvalid_none_iff _).mpr hvalid
  have hdec := zeros_decomposition b
  set z := (b.takeWhile (· == 0)).length with hzdef
  set rest := b.dropWhile (· == 0) with hrestdef
  have hval : beVal b = beVal rest := by
    conv_lhs => rw [hdec]
    exact beVal_replicate_zero_append z rest
  have hrestmem : ∀ x ∈ rest, x < 256 := by
    intro x hx
    refine hb x ?_
    rw [hdec]
    exact List.mem_append_right _ hx
  have hcanon : rest = [] ∨ ∃ h t, rest = h :: t ∧ h ≠ 0 := by
    cases hr : rest with
    | nil => exact Or.inl rfl
    | cons h t =>
      refine Or.inr ⟨h, t, rfl, ?_⟩
      have := dropWhile_head_false (· == 0) b h t (by rw [← hrestdef, hr])
      simpa using this
  have hbytes : toBytes256 (beVal b) = rest := by
    rw [hval]
    exact toBytes256_beVal rest hrestmem hcanon
  rw [decode_eq_of_valid (encodeCore b) (by omega) hfi]
  refine congrArg Except.ok ?_
  by_cases hn : beVal b = 0
  · have hrestnil : rest = [] := by
      rcases hcanon with hr | ⟨h, t, hr, hne⟩
      · exact hr
      · exfalso
        have hpos : 0 < beVal rest := by
          rw [hr]
          exact beVal_cons_pos h t hne
        omega
    have hbeq : b = List.replicate z 0 := by
      conv_lhs => rw [hdec]
      rw [hrestnil, List.append_nil]
    have hs : encodeCore b = List.replicate z '1' := by
      rw [encodeCore_eq, hn, toDigits58_zero]
      simp
    rw [hs, takeWhile_replicate_pos _ '1' (by decide),
      dropWhile_replicate_pos _ '1' (by decide)]
    simp only [List.length_replicate, List.map_nil]
    rw [show fromDigits58 [] = 0 from rfl, show toBytes256 0 = [] from rfl,
      List.append_nil]
    exact hbeq.symm
  · obtain ⟨d, t, hdt, hdne, hdlt⟩ :=
      toBase_head 58 (by norm_num) (beVal b) (Nat.pos_of_ne_zero hn)
    have hdt' : toDigits58 (beVal b) = d :: t := hdt
    have hne1 : (digitChar d == '1') = false := by
      refine beq_eq_false_iff_ne.mpr fun hEq => hdne ?_
      exact (digitChar_eq_one_iff d hdlt).mp hEq
    have hs : encodeCore b = List.replicate z '1'
        ++ (digitChar d :: t.map digitChar) := by
      rw [encodeCore_eq, hdt', List.map_cons]
    have htake : (encodeCore b).takeWhile (· == '1') = List.replicate z '1' := by
      rw [hs, takeWhile_replicate_append _ '1' (by decide), List.takeWhile_cons,
        hne1]
      simp
    have hdrop : (encodeCore b).dropWhile (· == '1')
        = digitChar d :: t.map digitChar := by
      rw [hs, dropWhile_replicate_append _ '1' (by decide),
        List.dropWhile_cons_of_neg (by simp [hne1])]
    rw [htake, hdrop, List.length_replicate]
    have hds : (digitChar d :: t.map digitChar).map charIndex = d :: t := by
      have hmem : ∀ x ∈ d :: t, x < 58 := by
        intro x hx
        rw [← hdt'] at hx
        exact toBase_lt 58 (by norm_num) _ x hx
      have := map_charIndex_digitChar (d :: t) hmem
      simpa using this
    rw [hds, ← hdt', fromDigits58_toDigits58, hbytes]
    exact hdec.symm

end Base58

instance instDecidableEqExcept {e a : Type} [DecidableEq e] [DecidableEq a] :
    DecidableEq (Except e a) := fun x y =>
  match x, y with
  | .ok u, .ok v =>
    if h : u = v then isTrue (by rw [h])
    else isFalse (fun hc => h (by injection hc))
  | .error u, .error v =>
    if h : u = v then isTrue (by rw [h])
    else isFalse (fun hc => h (by injection hc))
  | .ok _, .error _ => isFalse (fun hc => Except.noConfusion hc)
  | .error _, .ok _ => isFalse (fun hc => Except.noConfusion hc)

namespace Cli

/-- UTF-8 encoding of a single character (Python `str.encode('utf-8')` acts
per code point; Lean's `Char` excludes surrogates, so encoding never fails). -/
def utf8EncodeChar (c : Char) : List Nat :=
  let n := c.toNat
  if n < 128 then [n]
  else if n < 2048 then [192 + n / 64, 128 + n % 64]
  else if n < 65536 then [224 + n / 4096, 128 + (n / 64) % 64, 128 + n % 64]
  else [240 + n / 262144, 128 + (n / 4096) % 64, 128 + (n / 64) % 64, 128 + n % 64]

/-- UTF-8 encoding of a string, as the byte sequence Python's
`input_data.encode('utf-8')` produces. -/
def utf8Encode (s : List Char) : List Nat :=
  (s.map utf8EncodeChar).flatten

/-- A UTF-8 continuation byte. -/
def isCont (b : Nat) : Bool :=
  decide (128 ≤ b ∧ b < 192)

/-- Fuel-driven strict UTF-8 decoder (Python `bytes.decode('utf-8')`):
rejects truncated sequences, stray continuation bytes, overlong encodings,
surrogates and code points beyond U+10FFFF. -/
def utf8DecodeGo : Nat → List Nat → Option (List Char)
  | _, [] => some []
  | 0, _ :: _ => none
  | fuel + 1, b :: bs =>
    if b < 128 then
      (utf8DecodeGo fuel bs).map (fun cs => Char.ofNat b :: cs)
    else if 194 ≤ b ∧ b ≤ 223 then
      match bs with
      | b1 :: bs' =>
        if isCont b1 then
          (utf8DecodeGo fuel bs').map
            (fun cs => Char.ofNat ((b - 192) * 64 + (b1 - 128)) :: cs)
        else none
      | [] => none
    else if 224 ≤ b ∧ b ≤ 239 then
      match bs with
      | b1 :: b2 :: bs' =>
        if isCont b1 ∧ isCont b2 ∧ (b = 224 → 160 ≤ b1) ∧ (b = 237 → b1 < 160) then
          (utf8DecodeGo fuel bs').map
            (fun cs => Char.ofNat ((b - 224) * 4096 + (b1 - 128) * 64 + (b2 - 128)) :: cs)
        else none
      | _ => none
    else if 240 ≤ b ∧ b ≤ 244 then
      match bs with
      | b1 :: b2 :: b3 :: bs' =>
        if isCont b1 ∧ isCont b2 ∧ isCont b3
            ∧ (b = 240 → 144 ≤ b1) ∧ (b = 244 → b1 < 144) then
          (utf8DecodeGo fuel bs').map
            (fun cs => Char.ofNat
              ((b - 240) * 262144 + (b1 - 128) * 4096 + (b2 - 128) * 64 + (b3 - 128)) :: cs)
        else none
      | _ => none
    else none

/-- Strict UTF-8 decoding of a byte sequence. -/
def utf8Decode (bs : List Nat) : Option (List Char) :=
  utf8DecodeGo bs.length bs

/-- One printed line of CLI output.  Each `print(...)` call in `cli.py` emits
exactly one line; lines carrying computed data keep it structured. -/
inductive Line where
  | output (s : List Char)
  | cliLengthError (observed : Nat) (limit : Nat)
  | codecError (e : Base58.Base58Error)
  | unknownCommand (cmd : List Char)
  | usageText (s : List Char)
  | usageEncodeMax (limit : Nat)
  | usageDecodeMax (limit : Nat)
  | notUtf8Error
  deriving DecidableEq

/-- Observable outcome of a CLI invocation: the process exit code and the
sequence of lines printed to standard output. -/
structure CliResult where
  exitCode : Nat
  outLines : List Line
  deriving DecidableEq

/-- `print_usage` in `cli.py`: eleven `print` calls, the last two carrying the
encode and decode length limits. -/
def usageLines : List Line :=
  [ .usageText ("Usage:").data,
    .usageText ("  python -m splurge_base58 encode <INPUT>").data,
    .usageText ("  python -m splurge_base58 decode <INPUT>").data,
    .usageText ("").data,
    .usageText ("Commands:").data,
    .usageText ("  encode    Encode binary data to base-58 string").data,
    .usageText ("  decode    Decode base-58 string to binary data").data,
    .usageText ("").data,
    .usageText ("Constraints:").data,
    .usageEncodeMax Base58.maxEncodeInputLength,
    .usageDecodeMax Base58.maxDecodeInputLength ]

/-- `encode_command` in `cli.py`: reject over-long argument strings by
character count, otherwise UTF-8 encode and call the codec.  The
`UnicodeEncodeError` branch of the source is unreachable here since every
`Char` is UTF-8 encodable. -/
def encode_command (input : List Char) : CliResult :=
  if input.length > Base58.maxEncodeInputLength then
    ⟨1, [.cliLengthError input.length Base58.maxEncodeInputLength]⟩
  else
    match Base58.encode (utf8Encode input) with
    | .ok s => ⟨0, [.output s]⟩
    | .error e => ⟨1, [.codecError e]⟩

/-- `decode_command` in `cli.py`: reject over-long inputs against the derived
maximum, otherwise decode and display the bytes as UTF-8 text.  The console
is modelled as able to display any text, so the source's
`UnicodeEncodeError` display branch is unreachable. -/
def decode_command (input : List Char) : CliResult :=
  if input.length > Base58.maxDecodeInputLength then
    ⟨1, [.cliLengthError input.length Base58.maxDecodeInputLength]⟩
  else
    match Base58.decode input with
    | .error e => ⟨1, [.codecError e]⟩
    | .ok bytes =>
      match utf8Decode bytes with
      | none => ⟨1, [.notUtf8Error]⟩
      | some text => ⟨0, [.output text]⟩

/-- `main` in `cli.py`: usage text and exit 1 when fewer than three `argv`
entries, dispatch on the lower-cased command, unknown commands print an error
line plus the usage text and exit 1. -/
def main (argv : List (List Char)) : CliResult :=
  if argv.length < 3 then ⟨1, usageLines⟩
  else
    let command := (argv.getD 1 []).map Char.toLower
    let input := argv.getD 2 []
    if command = ("encode").data then encode_command input
    else if command = ("decode").data then decode_command input
    else ⟨1, .unknownCommand command :: usageLines⟩

theorem utf8Encode_replicate_len (m : Nat) (c : Char) :
    (utf8Encode (List.replicate m c)).length = m * (utf8EncodeChar c).length := by
  induction m with
  | zero => simp [utf8Encode]
  | succ m ih =>
    rw [List.replicate_succ]
    simp only [utf8Encode, List.map_cons, List.flatten_cons] at ih ⊢
    rw [List.length_append, ih]
    ring

/-- Every `encode_command` run prints exactly one line: the encoded output
with exit 0, or a single non-result error line with exit 1. -/
theorem encode_command_shape (input : List Char) :
    (∃ s, encode_command input = ⟨0, [Line.output s]⟩) ∨
    (∃ l, encode_command input = ⟨1, [l]⟩ ∧ ∀ s, l ≠ Line.output s) := by
  unfold encode_command
  by_cases h : input.length > Base58.maxEncodeInputLength
  · rw [if_pos h]
    exact Or.inr ⟨_, rfl, fun s hs => Line.noConfusion hs⟩
  · rw [if_neg h]
    cases henc : Base58.encode (utf8Encode input) with
    | ok s => exact Or.inl ⟨s, rfl⟩
    | error e => exact Or.inr ⟨_, rfl, fun s hs => Line.noConfusion hs⟩

/-- Every `decode_command` run prints exactly one line: the decoded text with
exit 0, or a single non-result error line with exit 1. -/
theorem decode_command_shape (input : List Char) :
    (∃ s, decode_command input = ⟨0, [Line.output s]⟩) ∨
    (∃ l, decode_command input = ⟨1, [l]⟩ ∧ ∀ s, l ≠ Line.output s) := by
  unfold decode_command
  by_cases h : input.length > Base58.maxDecodeInputLength
  · rw [if_pos h]
    exact Or.inr ⟨_, rfl, fun s hs => Line.noConfusion hs⟩
  · rw [if_neg h]
    cases hdec : Base58.decode input with
    | error e => exact Or.inr ⟨_, rfl, fun s hs => Line.noConfusion hs⟩
    | ok bytes =>
      dsimp only
      cases hutf : utf8Decode bytes with
      | none => exact Or.inr ⟨_, rfl, fun s hs => Line.noConfusion hs⟩
      | some text => exact Or.inl ⟨text, rfl⟩

end Cli

theorem except_bind_ok {e a b : Type} (x : a) (f : a → Except e b) :
    (Except.ok x : Except e a).bind f = f x := rfl

theorem encode_max_a :
    Base58.encode (List.replicate Base58.maxEncodeInputLength 97)
      = .ok (Base58.encodeCore (List.replicate Base58.maxEncodeInputLength 97)) := by
  have hlenrep : (List.replicate Base58.maxEncodeInputLength 97).length
      = Base58.maxEncodeInputLength := List.length_replicate _ _
  unfold Base58.encode
  rw [if_neg (by rw [hlenrep]; exact Nat.lt_irrefl _)]

/-! ## Claim theorems -/

/-- C1: for every byte sequence `b` with `0 ≤ len(b) ≤ 2048`
(`MAX_ENCODE_LENGTH`), `decode(encode(b)) = b`: decode is the exact inverse
of encode on all inputs within the length bound. -/
theorem c1_round_trip (b : List Nat) (hlen : b.length ≤ Base58.maxEncodeInputLength)
    (hb : ∀ x ∈ b, x < 256) :
    (Base58.encode b).bind Base58.decode = Except.ok b := by
  have henc : Base58.encode b = .ok (Base58.encodeCore b) := by
    unfold Base58.encode
    rw [if_neg (by omega)]
  rw [henc, except_bind_ok]
  exact Base58.decode_encodeCore b hlen hb

theorem c1_round_trip_witness :
    (Base58.encode [72, 101, 108, 108, 111]).bind Base58.decode
      = Except.ok [72, 101, 108, 108, 111] :=
  c1_round_trip [72, 101, 108, 108, 111] (by decide) (by decide)

/-- C7: encode of exactly 2048 repetitions of byte `'a'` succeeds, and encode
of 2049 repetitions fails with a `LengthExceeded` error carrying the observed
length and the limit. -/
theorem c7_length_boundary :
    (∃ s, Base58.encode (List.replicate 2048 97) = .ok s) ∧
    Base58.encode (List.replicate 2049 97)
      = .error (.lengthExceeded 2049 Base58.maxEncodeInputLength) := by
  constructor
  · exact ⟨_, encode_max_a⟩
  · unfold Base58.encode
    rw [List.length_replicate]
    rw [if_pos (by decide)]

/-- C8: empty inputs are identities: encode of the empty byte sequence is the
empty string, and decode of the empty string succeeds with the empty byte
sequence. -/
theorem c8_empty_identity :
    Base58.encode [] = .ok [] ∧ Base58.decode [] = .ok [] := by
  constructor
  · unfold Base58.encode
    rw [if_neg (by decide)]
    rfl
  · unfold Base58.decode
    rw [if_neg (show ¬ ([] : List Char).length > Base58.maxDecodeInputLength from
      fun h => Nat.not_lt_zero _ h)]
    rfl

/-- C5 counterexample: the claim quantifies over every `n ≥ 0`, but at
`n = 2049` the modelled codec rejects the input with a length error instead
of returning 2049 zero-characters (the spec itself requires
`encode(b"a"*2049)` to fail with LengthExceeded, so encode cannot also map
2049 zero bytes to `"1" * 2049`). -/
theorem c5_zero_preservation_cex :
    Base58.encode (List.replicate 2049 0) ≠ Except.ok (List.replicate 2049 '1') := by
  unfold Base58.encode
  rw [List.length_replicate]
  rw [if_pos (by decide)]
  intro h
  exact Except.noConfusion h

/-- C5 amended: zero-preservation holds on every input the codec accepts:
`encode(b"\x00" * n) = "1" * n` for all `n ≤ MAX_ENCODE_LENGTH`, and
`decode("1" * n) = b"\x00" * n` for all `n ≤ MAX_DECODE_LENGTH`. -/
theorem c5_zero_preservation_amended :
    (∀ n, n ≤ Base58.maxEncodeInputLength →
      Base58.encode (List.replicate n 0) = .ok (List.replicate n '1')) ∧
    (∀ n, n ≤ Base58.maxDecodeInputLength →
      Base58.decode (List.replicate n '1') = .ok (List.replicate n 0)) := by
  constructor
  · intro n hn
    unfold Base58.encode
    rw [if_neg (by rw [List.length_replicate]; omega)]
    refine congrArg Except.ok ?_
    rw [Base58.encodeCore_eq]
    have h0 : Base58.beVal (List.replicate n 0) = 0 := by
      have := Base58.beVal_replicate_zero_append n []
      simpa using this
    rw [h0, Base58.toDigits58_zero,
      Base58.takeWhile_replicate_pos _ (0 : Nat) (by decide) n]
    simp only [List.map_nil, List.append_nil, List.length_replicate]
  · intro n hn
    have hnot : ¬ (List.replicate n '1').length > Base58.maxDecodeInputLength := by
      rw [List.length_replicate]
      omega
    have hvalid : ∀ c ∈ List.replicate n '1', c ∈ Base58.alphabet := by
      intro c hc
      rw [List.eq_of_mem_replicate hc]
      exact Base58.one_mem_alphabet
    rw [Base58.decode_eq_of_valid _ hnot ((Base58.findInvalid_none_iff _).mpr hvalid)]
    refine congrArg Except.ok ?_
    rw [Base58.takeWhile_replicate_pos _ '1' (by decide) n,
      Base58.dropWhile_replicate_pos _ '1' (by decide) n]
    simp only [List.length_replicate, List.map_nil]
    rw [show Base58.fromDigits58 [] = 0 from rfl,
      show Base58.toBytes256 0 = [] from rfl, List.append_nil]

theorem c5_zero_preservation_witness :
    Base58.encode (List.replicate 3 0) = .ok (List.replicate 3 '1') ∧
    Base58.decode (List.replicate 3 '1') = .ok (List.replicate 3 0) :=
  ⟨c5_zero_preservation_amended.1 3 (by decide),
   c5_zero_preservation_amended.2 3 (by rw [Base58.maxDecode_eq]; norm_num)⟩

/-- C3: the maximum decode input length equals the length of the string
obtained by encoding 2048 repetitions of the byte `0x61` (`'a'`), and every
CLI decode input longer than this bound fails with a length-exceeded error. -/
theorem c3_derived_decode_bound :
    (∃ s, Base58.encode (List.replicate Base58.maxEncodeInputLength 97) = .ok s ∧
      Base58.maxDecodeInputLength = s.length) ∧
    (∀ input : List Char, input.length > Base58.maxDecodeInputLength →
      Cli.decode_command input
        = ⟨1, [Cli.Line.cliLengthError input.length Base58.maxDecodeInputLength]⟩) := by
  constructor
  · refine ⟨_, encode_max_a, ?_⟩
    unfold Base58.maxDecodeInputLength
    rw [encode_max_a]
  · intro input h
    unfold Cli.decode_command
    rw [if_pos h]

theorem c3_derived_decode_bound_witness :
    Cli.decode_command (List.replicate 2800 '1')
      = ⟨1, [Cli.Line.cliLengthError 2800 Base58.maxDecodeInputLength]⟩ := by
  have h : (List.replicate 2800 '1').length > Base58.maxDecodeInputLength := by
    rw [List.length_replicate, Base58.maxDecode_eq]
    norm_num
  have := c3_derived_decode_bound.2 (List.replicate 2800 '1') h
  rw [List.length_replicate] at this
  exact this

/-- C4: decode fails with an invalid-character error, reporting the offending
character and its position, exactly when the input (within the length bound)
contains a character outside the 58-character alphabet; it fails with a
length error exactly when the input exceeds the maximum decode length; and it
has no other failure mode (valid input within bounds always succeeds). -/
theorem c4_decode_failure_modes (s : List Char) :
    (s.length > Base58.maxDecodeInputLength →
      Base58.decode s
        = .error (.lengthExceeded s.length Base58.maxDecodeInputLength)) ∧
    (s.length ≤ Base58.maxDecodeInputLength →
      ((∀ c ∈ s, c ∈ Base58.alphabet) → ∃ bs, Base58.decode s = .ok bs) ∧
      ((∃ c ∈ s, c ∉ Base58.alphabet) →
        ∃ c i, Base58.decode s = .error (.invalidCharacter c i) ∧
          s[i]? = some c ∧ c ∉ Base58.alphabet ∧
          ∀ m, m < i → ∃ cm ∈ Base58.alphabet, s[m]? = some cm)) := by
  constructor
  · intro h
    unfold Base58.decode
    rw [if_pos h]
  · intro hle
    constructor
    · intro hvalid
      exact ⟨_, Base58.decode_eq_of_valid s (by omega)
        ((Base58.findInvalid_none_iff s).mpr hvalid)⟩
    · intro hinv
      cases hfi : Base58.findInvalid s with
      | none =>
        exfalso
        obtain ⟨c, hc, hcn⟩ := hinv
        exact hcn ((Base58.findInvalid_none_iff s).mp hfi c hc)
      | some p =>
        obtain ⟨c, i⟩ := p
        obtain ⟨h1, h2, h3⟩ := Base58.findInvalid_some_spec s c i hfi
        refine ⟨c, i, ?_, h1, h2, h3⟩
        unfold Base58.decode
        rw [if_neg (by omega), hfi]

theorem c4_decode_failure_modes_witness :
    ∃ c i, Base58.decode ['0'] = .error (.invalidCharacter c i) ∧
      (['0'])[i]? = some c ∧ c ∉ Base58.alphabet ∧
      ∀ m, m < i → ∃ cm ∈ Base58.alphabet, (['0'])[m]? = some cm :=
  ((c4_decode_failure_modes ['0']).2
    (by rw [Base58.maxDecode_eq]; norm_num)).2 ⟨'0', by simp, by decide⟩

/-- C6: `is_valid` is a total boolean predicate (it never raises, being a
plain function into `Bool`), and `is_valid s = true` implies `decode s` does
not fail with an invalid-character error (it may still fail only due to
length). -/
theorem c6_is_valid_agrees_with_decode (s : List Char)
    (h : Base58.is_valid s = true) :
    ∀ c i, Base58.decode s ≠ .error (.invalidCharacter c i) := by
  intro c i hcontra
  have hvalid : ∀ x ∈ s, x ∈ Base58.alphabet := by
    simpa [Base58.is_valid, List.all_eq_true] using h
  have hfi : Base58.findInvalid s = none :=
    (Base58.findInvalid_none_iff s).mpr hvalid
  by_cases hlen : s.length > Base58.maxDecodeInputLength
  · have hdec : Base58.decode s
        = .error (.lengthExceeded s.length Base58.maxDecodeInputLength) := by
      unfold Base58.decode
      rw [if_pos hlen]
    rw [hdec] at hcontra
    injection hcontra with he
    exact Base58.Base58Error.noConfusion he
  · have hdec := Base58.decode_eq_of_valid s hlen hfi
    rw [hdec] at hcontra
    exact Except.noConfusion hcontra

theorem c6_is_valid_agrees_with_decode_witness :
    Base58.decode ("JxF1").data ≠ .error (.invalidCharacter '0' 0) :=
  c6_is_valid_agrees_with_decode ("JxF1").data (by decide) '0' 0

/-- C9: the CLI encode command's length check counts characters, not UTF-8
bytes: an argument of at most 2048 characters whose UTF-8 encoding exceeds
2048 bytes passes the CLI's own check unrebuked, and the over-long byte
sequence is handed to `Base58.encode`, whose length error (carrying the byte
count) is what gets reported. -/
theorem c9_encode_counts_chars (input : List Char)
    (h1 : input.length ≤ Base58.maxEncodeInputLength)
    (h2 : (Cli.utf8Encode input).length > Base58.maxEncodeInputLength) :
    Cli.encode_command input
      = ⟨1, [Cli.Line.codecError (.lengthExceeded (Cli.utf8Encode input).length
          Base58.maxEncodeInputLength)]⟩ := by
  unfold Cli.encode_command
  rw [if_neg (by omega)]
  have henc : Base58.encode (Cli.utf8Encode input)
      = .error (.lengthExceeded (Cli.utf8Encode input).length
          Base58.maxEncodeInputLength) := by
    unfold Base58.encode
    rw [if_pos h2]
  rw [henc]

theorem c9_encode_counts_chars_witness :
    Cli.encode_command (List.replicate 1025 'ÿ')
      = ⟨1, [Cli.Line.codecError (.lengthExceeded 2050
          Base58.maxEncodeInputLength)]⟩ := by
  have h2 : (Cli.utf8Encode (List.replicate 1025 'ÿ')).length = 2050 := by
    rw [Cli.utf8Encode_replicate_len]
    decide
  have := c9_encode_counts_chars (List.replicate 1025 'ÿ')
    (by rw [List.length_replicate]; decide) (by rw [h2]; decide)
  rw [h2] at this
  exact this

/-- C10: the CLI decode command checks the length bound before any character
validation: over-long inputs are rejected with the CLI's length error
without `Base58.decode` being consulted — the outcome depends only on the
input's length, even when the input contains characters outside the
alphabet. -/
theorem c10_length_check_before_validation (input : List Char)
    (h : input.length > Base58.maxDecodeInputLength) :
    Cli.decode_command input
      = ⟨1, [Cli.Line.cliLengthError input.length Base58.maxDecodeInputLength]⟩ ∧
    ∀ input2 : List Char, input2.length = input.length →
      Cli.decode_command input2 = Cli.decode_command input := by
  have h1 : ∀ inp : List Char, inp.length = input.length →
      Cli.decode_command inp
        = ⟨1, [Cli.Line.cliLengthError input.length Base58.maxDecodeInputLength]⟩ := by
    intro inp hlen
    unfold Cli.decode_command
    rw [hlen, if_pos h]
  exact ⟨h1 input rfl, fun i2 hl => by rw [h1 i2 hl, h1 input rfl]⟩

theorem c10_length_check_before_validation_witness :
    Cli.decode_command (List.replicate 2798 '!')
      = ⟨1, [Cli.Line.cliLengthError 2798 Base58.maxDecodeInputLength]⟩ := by
  have h : (List.replicate 2798 '!').length > Base58.maxDecodeInputLength := by
    rw [List.length_replicate, Base58.maxDecode_eq]
    norm_num
  have := (c10_length_check_before_validation (List.replicate 2798 '!') h).1
  rw [List.length_replicate] at this
  exact this

/-- C2 counterexample: the unknown-command path does not emit exactly one
line before exiting 1 — at a concrete unknown-command invocation `main`
prints twelve lines (the error line followed by the eleven-line usage text)
with exit code 1, so "every failure path produces exactly one line of error
output" is false of `main` in `cli.py`. -/
theorem c2_single_line_cex :
    (Cli.main [("prog").data, ("badcmd").data, ("x").data]).exitCode = 1 ∧
    (Cli.main [("prog").data, ("badcmd").data, ("x").data]).outLines.length = 12 := by
  constructor
  · decide
  · decide

/-- C2 amended, path by path: the missing-argument path prints exactly the
eleven-line usage text and exits 1; the encode and decode command paths each
print exactly one line — the result with exit code 0 on success, or a single
non-result error line with exit code 1 on failure; and the unknown-command
path prints one error line followed by the eleven-line usage text (twelve
lines) and exits 1. -/
theorem c2_output_discipline (argv : List (List Char)) :
    (argv.length < 3 →
      Cli.main argv = ⟨1, Cli.usageLines⟩ ∧ Cli.usageLines.length = 11) ∧
    (3 ≤ argv.length →
      ((argv.getD 1 []).map Char.toLower = ("encode").data →
        Cli.main argv = Cli.encode_command (argv.getD 2 []) ∧
        ((∃ s, Cli.encode_command (argv.getD 2 []) = ⟨0, [Cli.Line.output s]⟩) ∨
         (∃ l, Cli.encode_command (argv.getD 2 []) = ⟨1, [l]⟩ ∧
            ∀ s, l ≠ Cli.Line.output s))) ∧
      ((argv.getD 1 []).map Char.toLower = ("decode").data →
        Cli.main argv = Cli.decode_command (argv.getD 2 []) ∧
        ((∃ s, Cli.decode_command (argv.getD 2 []) = ⟨0, [Cli.Line.output s]⟩) ∨
         (∃ l, Cli.decode_command (argv.getD 2 []) = ⟨1, [l]⟩ ∧
            ∀ s, l ≠ Cli.Line.output s))) ∧
      ((argv.getD 1 []).map Char.toLower ≠ ("encode").data →
        (argv.getD 1 []).map Char.toLower ≠ ("decode").data →
        Cli.main argv
          = ⟨1, Cli.Line.unknownCommand ((argv.getD 1 []).map Char.toLower)
              :: Cli.usageLines⟩ ∧
        (Cli.Line.unknownCommand ((argv.getD 1 []).map Char.toLower)
              :: Cli.usageLines).length = 12)) := by
  constructor
  · intro h3
    constructor
    · simp only [Cli.main]
      rw [if_pos h3]
    · rfl
  · intro h3
    refine ⟨?_, ?_, ?_⟩
    · intro he
      refine ⟨?_, Cli.encode_command_shape (argv.getD 2 [])⟩
      simp only [Cli.main]
      rw [if_neg (by omega), if_pos he]
    · intro hd
      refine ⟨?_, Cli.decode_command_shape (argv.getD 2 [])⟩
      simp only [Cli.main]
      rw [if_neg (by omega), if_neg (by rw [hd]; decide), if_pos hd]
    · intro hne hnd
      constructor
      · simp only [Cli.main]
        rw [if_neg (by omega), if_neg hne, if_neg hnd]
      · rfl

theorem c2_output_discipline_witness :
    Cli.main [("prog").data, ("badcmd").data, ("x").data]
      = ⟨1, Cli.Line.unknownCommand (("badcmd").data) :: Cli.usageLines⟩ := by
  have h := ((c2_output_discipline
    [("prog").data, ("badcmd").data, ("x").data]).2 (by decide)).2.2
    (by decide) (by decide)
  have heq : (([("prog").data, ("badcmd").data, ("x").data].getD 1 []).map
      Char.toLower) = ("badcmd").data := by decide
  rw [heq] at h
  exact h.1
